import Mathlib

/-!
Verification of the PDF annotation-extraction scripts
(`extract_highlighted_lines.py` and `extract_comments.py`).

The scripts' numeric data are PyMuPDF floats; we embed coordinates and
colors as exact rationals (`ℚ`), which matches the arithmetic the spec
describes.  External toolkit services (page text extraction, annotation
enumeration) are modelled as explicit parameters; everything else is
translated from the Python source.  Python's stable `list.sort` is
modelled by `List.insertionSort` with a strict lexicographic comparison,
which is stable and kernel-computable.
-/

namespace PdfExtract

/-- Python's `str.rstrip()`: drop trailing whitespace.  (Stated over the
string's character list so that it computes by kernel reduction; Lean's
built-in `String.trimRight` is extensionally the same but is defined by
well-founded recursion over byte positions.) -/
def pyRstrip (s : String) : String :=
  ⟨(s.data.reverse.dropWhile Char.isWhitespace).reverse⟩

/-- Python's `str.strip()`: drop leading and trailing whitespace. -/
def pyStrip (s : String) : String :=
  ⟨((s.data.dropWhile Char.isWhitespace).reverse.dropWhile
      Char.isWhitespace).reverse⟩

/-- Splitting a character list at newline characters. -/
def splitNewlineChars : List Char → List Char → List (List Char)
  | [], cur => [cur.reverse]
  | c :: rest, cur =>
    if c = '\n' then cur.reverse :: splitNewlineChars rest []
    else splitNewlineChars rest (c :: cur)

/-- Python's `str.splitlines()` (newline-separated, as produced by the
toolkit's text extraction). -/
def pySplitlines (s : String) : List String :=
  (splitNewlineChars s.data []).map fun l => ⟨l⟩

/-- A rectangle `(x0, y0, x1, y1)`, as used throughout both scripts. -/
structure Rect where
  x0 : ℚ
  y0 : ℚ
  x1 : ℚ
  y1 : ℚ
  deriving Repr, DecidableEq

/-- `intersects(b1, b2)` from `extract_highlighted_lines.py` (lines 43-46):
`not (x1 < a0 or a1 < x0 or y1 < b0 or b1_ < y0)`. -/
def intersects (b1 b2 : Rect) : Bool :=
  !(b1.x1 < b2.x0 || b2.x1 < b1.x0 || b1.y1 < b2.y0 || b2.y1 < b1.y0)

/-- An RGB color triple (components in `[0,1]`). -/
abbrev RGB := ℚ × ℚ × ℚ

/-- The square of `dist(c1, c2)` from `extract_highlighted_lines.py`
(line 25-26): the source computes `sqrt(sum((a-b)**2))`; since `sqrt` is
strictly monotone on nonnegatives, every comparison of distances in the
source is equivalent to the same comparison of squared distances, which we
keep in exact rational arithmetic.  The theorems about the classifier are
stated in terms of the true Euclidean distance `Real.sqrt (dist2 _ _)`. -/
def dist2 (c1 c2 : RGB) : ℚ :=
  (c1.1 - c2.1) ^ 2 + (c1.2.1 - c2.2.1) ^ 2 + (c1.2.2 - c2.2.2) ^ 2

/-- The eight-entry palette `color_table` from `main` of
`extract_highlighted_lines.py` (lines 133-142), in declaration order. -/
def color_table : List (String × RGB) :=
  [("yellow", (1, 1, 0)),
   ("green", (0, 1, 0)),
   ("blue", (0, 1, 1)),
   ("light-blue", (0.6, 0.8, 1)),
   ("red", (1, 0, 0)),
   ("orange", (1, 0.6, 0)),
   ("purple", (0.6, 0.2, 0.8)),
   ("pink", (1, 0.6, 0.8))]

/-- The fold inside `classify_nearest_color`: Python's
`min(..., key=lambda item: item[1])` keeps the first-iterated element and
replaces it only on a strictly smaller key. -/
def pickNearest (c : RGB) (e : String × RGB) (rest : List (String × RGB)) :
    String × RGB :=
  rest.foldl (fun best p => if dist2 c p.2 < dist2 c best.2 then p else best) e

/-- `classify_nearest_color(c, color_table)` from
`extract_highlighted_lines.py` (lines 78-85).  `none` for an absent color;
the empty-palette branch is unreachable (`color_table` has eight entries). -/
def classify_nearest_color : Option RGB → Option String
  | none => none
  | some c =>
    match color_table with
    | [] => none
    | e :: rest => some (pickNearest c e rest).1

/-- One processed text line as consumed by the merge heuristic: the code
reads `line["lines"][0]["bbox"]` (a singleton list, collapsed here to one
field) and the two flags set by the coverage pass. -/
structure LineInfo where
  bbox : Rect
  has_unhighlighted_gap : Bool
  has_unhighlighted_after : Bool
  deriving Repr, DecidableEq

/-- `has_unhighlighted_after_between(lines, upper_y, lower_y)` from
`extract_highlighted_lines.py` (lines 99-107): skip a line when
`y0 > lower_y or y1 < upper_y`, otherwise report it if its
`has_unhighlighted_after` flag is set. -/
def has_unhighlighted_after_between (lines : List LineInfo)
    (upper_y lower_y : ℚ) : Bool :=
  lines.any fun l =>
    !(l.bbox.y0 > lower_y || l.bbox.y1 < upper_y) && l.has_unhighlighted_after

/-- `should_merge_rects(prev_rect, next_rect, lines)` from
`extract_highlighted_lines.py` (lines 110-126). -/
def should_merge_rects (prev_rect next_rect : Rect)
    (lines : List LineInfo) : Bool :=
  let prev_height : ℚ := max 1 (prev_rect.y1 - prev_rect.y0)
  let y_gap : ℚ := next_rect.y0 - prev_rect.y1
  let vertical_overlap : Bool :=
    next_rect.y0 ≤ prev_rect.y1 && next_rect.y1 ≥ prev_rect.y0
  let same_line : Bool :=
    vertical_overlap || |next_rect.y0 - prev_rect.y0| ≤ prev_height * 0.5
  if same_line then
    next_rect.x0 - prev_rect.x1 ≤ max 6 (prev_height * 0.6)
  else if y_gap > max 4 (prev_height * 0.8) then
    false
  else if has_unhighlighted_after_between lines prev_rect.y0 next_rect.y0 then
    false
  else
    true

/-- `max(1, prev_rect[3] - prev_rect[1])`, the `prevHeight` of the spec. -/
def prevHeight (r : Rect) : ℚ := max 1 (r.y1 - r.y0)

/-- The spec's "same line" condition (vertical overlap, or tops differing by
at most 50% of `prevHeight`), as a proposition. -/
def sameLineP (prev next : Rect) : Prop :=
  (next.y0 ≤ prev.y1 ∧ prev.y0 ≤ next.y1) ∨
    |next.y0 - prev.y0| ≤ prevHeight prev * 0.5

instance (prev next : Rect) : Decidable (sameLineP prev next) := by
  unfold sameLineP; infer_instance

/-- Spec-side predicate for the claim's phrase "a Line lying strictly
between the two rectangles' tops": the line's vertical extent lies strictly
inside the open interval between the previous rectangle's top and the next
rectangle's top. -/
def lineStrictlyBetweenTops (l : LineInfo) (prevTop nextTop : ℚ) : Prop :=
  prevTop < l.bbox.y0 ∧ l.bbox.y1 < nextTop

/-- Strict lexicographic order on intervals; `List.insertionSort` with it
models Python's stable `intervals.sort()` (tuples compare
lexicographically). -/
def intervalLt (a b : ℚ × ℚ) : Prop :=
  a.1 < b.1 ∨ (a.1 = b.1 ∧ a.2 < b.2)

instance (a b : ℚ × ℚ) : Decidable (intervalLt a b) := by
  unfold intervalLt; infer_instance

/-- `intervals.sort()` from `main` (line 212). -/
def sortIntervals (l : List (ℚ × ℚ)) : List (ℚ × ℚ) :=
  l.insertionSort intervalLt

/-- One step of the interval-merging fold in `main` (lines 213-218):
append a fresh interval when the next start lies strictly past the end of
the last merged interval, otherwise extend the last merged interval. -/
def mergeFold (merged : List (ℚ × ℚ)) (iv : ℚ × ℚ) : List (ℚ × ℚ) :=
  match merged.getLast? with
  | none => [iv]
  | some last =>
    if last.2 < iv.1 then merged ++ [iv]
    else merged.dropLast ++ [(last.1, max last.2 iv.2)]

/-- The interval-merging loop of `main` (lines 213-218). -/
def mergeIntervals (l : List (ℚ × ℚ)) : List (ℚ × ℚ) :=
  l.foldl mergeFold []

/-- Structural twin of `mergeIntervals` carrying the open last interval
`(s, e)`; used for reasoning and proved equal to the fold. -/
def mergeAux (s e : ℚ) : List (ℚ × ℚ) → List (ℚ × ℚ)
  | [] => [(s, e)]
  | iv :: rest =>
    if e < iv.1 then (s, e) :: mergeAux iv.1 iv.2 rest
    else mergeAux s (max e iv.2) rest

/-- `max(end for _, end in merged)` from `main` (line 222); `none` models
the `ValueError` Python raises on an empty sequence. -/
def maxEnd (l : List (ℚ × ℚ)) : Option ℚ :=
  l.foldl (fun acc iv =>
    match acc with
    | none => some iv.2
    | some m => some (max m iv.2)) none

/-- One step of the overlap-interval collection in `main` (lines 197-204):
an intersecting highlight contributes its horizontal overlap with the line
only when that overlap has positive width. -/
def overlapStep (line_rect : Rect) (acc : List (ℚ × ℚ)) (h : Rect) :
    List (ℚ × ℚ) :=
  if intersects line_rect h then
    let x0 := max line_rect.x0 h.x0
    let x1 := min line_rect.x1 h.x1
    if x0 < x1 then acc ++ [(x0, x1)] else acc
  else acc

/-- The overlap-interval collection loop of `main` (lines 196-204). -/
def lineIntervals (line_rect : Rect) (hs : List Rect) : List (ℚ × ℚ) :=
  hs.foldl (overlapStep line_rect) []

/-- The sorted-and-merged overlap intervals of `main` (lines 212-218). -/
def mergedIntervals (line_rect : Rect) (hs : List Rect) : List (ℚ × ℚ) :=
  mergeIntervals (sortIntervals (lineIntervals line_rect hs))

/-- The per-line fields set by the coverage pass of `main` (lines 195-227). -/
structure LineAnnot where
  highlighted_any : Bool
  has_unhighlighted_gap : Bool
  has_unhighlighted_after : Bool
  highlighted_max_x : Option ℚ
  deriving Repr, DecidableEq

/-- The coverage pass of `main` (lines 195-227) for one line against the
page's highlight rectangles.  When the line intersects some highlight but
every overlap has zero width, `merged` is empty and Python's
`max(end for _, end in merged)` raises `ValueError`; that state is modelled
by `highlighted_max_x = none` (with `has_unhighlighted_after` defaulted,
never reached by the aborting Python run). -/
def annotateLine (line_rect : Rect) (hs : List Rect) : LineAnnot :=
  let highlighted := hs.any fun h => intersects line_rect h
  if highlighted then
    let merged := mergedIntervals line_rect hs
    let covered := (merged.map fun p => p.2 - p.1).sum
    let line_width := max 1 (line_rect.x1 - line_rect.x0)
    let coverage_ratio := covered / line_width
    let hmx := maxEnd merged
    { highlighted_any := true
      has_unhighlighted_gap := coverage_ratio < 0.95
      has_unhighlighted_after :=
        match hmx with
        | some m => line_rect.x1 - m > max 6 (line_width * 0.1)
        | none => false
      highlighted_max_x := hmx }
  else
    { highlighted_any := false
      has_unhighlighted_gap := false
      has_unhighlighted_after := false
      highlighted_max_x := none }

/-- A page highlight retained by `main` (lines 181-187): rectangle,
classified color label, covered text lines. -/
structure PageHighlight where
  rect : Rect
  color : String
  lines : List String
  deriving Repr, DecidableEq

/-- A highlight group built by the fold of `main` (lines 230-244). -/
structure HGroup where
  rect : Rect
  color : String
  lines : List String
  last_rect : Rect
  deriving Repr, DecidableEq

/-- The coordinate-wise union of `main` (lines 238-240). -/
def rectUnion (a b : Rect) : Rect :=
  ⟨min a.x0 b.x0, min a.y0 b.y0, max a.x1 b.x1, max a.y1 b.y1⟩

/-- One step of the grouping fold in `main` (lines 231-244). -/
def groupStep (tlines : List LineInfo) (grouped : List HGroup)
    (item : PageHighlight) : List HGroup :=
  match grouped.getLast? with
  | some g =>
    if g.color == item.color &&
        should_merge_rects g.last_rect item.rect tlines then
      grouped.dropLast ++
        [{ rect := rectUnion g.rect item.rect
           color := g.color
           lines := g.lines ++ item.lines
           last_rect := item.rect }]
    else
      grouped ++ [⟨item.rect, item.color, item.lines, item.rect⟩]
  | none => grouped ++ [⟨item.rect, item.color, item.lines, item.rect⟩]

/-- The grouping fold of `main` (lines 230-244) over the page highlights
(already sorted by `(rect.top, rect.left)` at the call site). -/
def groupHighlights (tlines : List LineInfo) (phs : List PageHighlight) :
    List HGroup :=
  phs.foldl (groupStep tlines) []

/-- One emitted result record of the palette pipeline (lines 248-252):
`{page, colors: [label], text}`. -/
structure OutputRec where
  page : ℕ
  colors : List String
  text : String
  deriving Repr, DecidableEq

/-- The de-duplication key of `main` (line 253): `(page, text)`. -/
def dedupKey (o : OutputRec) : ℕ × String := (o.page, o.text)

/-- One step of the emission loop of `main` (lines 246-256): the `seen` set
is modelled as the list of keys already appended. -/
def dedupStep (st : List OutputRec × List (ℕ × String)) (o : OutputRec) :
    List OutputRec × List (ℕ × String) :=
  if dedupKey o ∈ st.2 then st else (st.1 ++ [o], st.2 ++ [dedupKey o])

/-- The whole-run emission with de-duplication (`seen` persists across
pages), applied to the candidate outputs in encounter order. -/
def dedupRun (candidates : List OutputRec) : List OutputRec :=
  (candidates.foldl dedupStep ([], [])).1

/-! ### The palette pipeline (`extract_highlighted_lines.py`, `main`) -/

/-- One text span of the structured text layout (`extract_lines`, line 56). -/
structure Span where
  text : String
  deriving Repr, DecidableEq

/-- One layout line of the structured text layout. -/
structure TextLine where
  spans : List Span
  bbox : Rect
  deriving Repr, DecidableEq

/-- One text block of the structured text layout; `btype` is the block's
`"type"` field (`0` for text blocks). -/
structure TextBlock where
  btype : ℤ
  tlines : List TextLine
  deriving Repr, DecidableEq

/-- Strict lexicographic order on `(bbox.y0, bbox.x0)`; sorting with it
models the stable `lines.sort(key=...)` of `extract_lines` (line 62). -/
def lineLt (a b : String × Rect) : Prop :=
  a.2.y0 < b.2.y0 ∨ (a.2.y0 = b.2.y0 ∧ a.2.x0 < b.2.x0)

instance (a b : String × Rect) : Decidable (lineLt a b) := by
  unfold lineLt; infer_instance

/-- `extract_lines(page)` from `extract_highlighted_lines.py`
(lines 49-63); the nested `{"text", "lines": [{"text", "bbox"}]}` record
(whose inner list is always a singleton) is collapsed to `(text, bbox)`. -/
def extract_lines (blocks : List TextBlock) : List (String × Rect) :=
  let raw := blocks.foldl
    (fun acc b =>
      if b.btype ≠ 0 then acc
      else b.tlines.foldl
        (fun acc l =>
          let line_text := pyStrip (String.join (l.spans.map Span.text))
          if line_text.isEmpty then acc else acc ++ [(line_text, l.bbox)])
        acc)
    []
  raw.insertionSort lineLt

/-- `extract_highlight_text(page, rect)` from `extract_highlighted_lines.py`
(lines 66-71); `getTextClip` models `page.get_text("text", clip=rect)`. -/
def extract_highlight_text (getTextClip : Rect → String) (rect : Rect) :
    List String :=
  let text := pyStrip (getTextClip rect)
  if text.isEmpty then []
  else ((pySplitlines text).map pyStrip).filter fun s => !s.isEmpty

/-- An annotation as seen by the palette pipeline (lines 150-158): its
`colors` dict gives an optional fill and an optional stroke color. -/
structure PAnnot where
  fill : Option RGB
  stroke : Option RGB
  rect : Rect

/-- A drawing as seen by the fallback path (lines 162-166). -/
structure Drawing where
  fill : Option RGB
  rect : Option Rect

/-- One page of the palette pipeline's document model; `getTextClip` models
`page.get_text("text", clip=...)` and `blocks` the `page.get_text("dict")`
layout. -/
structure PPage where
  annots : List PAnnot
  drawings : List Drawing
  getTextClip : Rect → String
  blocks : List TextBlock

/-- An entry of the global `highlights` list (lines 145-166). -/
structure Highlight where
  page : ℕ
  rect : Rect
  color : RGB
  deriving Repr, DecidableEq

/-- The fill-then-stroke color fallback of lines 151-156. -/
def annotColor (a : PAnnot) : Option RGB :=
  match a.fill with
  | some c => some c
  | none => a.stroke

/-- The highlight-collection loop of `main` (lines 147-166): annotations
first, drawings only on a page with no annotations. -/
def collectHighlights : ℕ → List PPage → List Highlight
  | _, [] => []
  | pi, p :: rest =>
    (p.annots.foldl
      (fun acc a =>
        match annotColor a with
        | some c => acc ++ [⟨pi, a.rect, c⟩]
        | none => acc)
      []) ++
    (if p.annots.isEmpty then
      p.drawings.foldl
        (fun acc d =>
          match d.fill, d.rect with
          | some f, some r => acc ++ [⟨pi, r, f⟩]
          | _, _ => acc)
        []
    else []) ++
    collectHighlights (pi + 1) rest

/-- Strict lexicographic order on `(rect.y0, rect.x0)` for page highlights;
sorting with it models the stable `page_highlights.sort(key=...)`
(line 229). -/
def phLt (a b : PageHighlight) : Prop :=
  a.rect.y0 < b.rect.y0 ∨ (a.rect.y0 = b.rect.y0 ∧ a.rect.x0 < b.rect.x0)

instance (a b : PageHighlight) : Decidable (phLt a b) := by
  unfold phLt; infer_instance

/-- The per-page body of the output loop of `main` (lines 170-244), up to
but excluding the de-duplicated emission: filter and classify the page's
highlights (lines 171-187), run the coverage pass over the page's text
lines (lines 192-227), sort and group (lines 229-244), and render each
group as an output record (lines 246-252). -/
def pageOutputs (highlights : List Highlight) (pi : ℕ) (p : PPage) :
    List OutputRec :=
  let page_highlights := highlights.foldl
    (fun acc h =>
      if h.page ≠ pi then acc
      else
        match classify_nearest_color (some h.color) with
        | none => acc
        | some label =>
          if label.isEmpty then acc  -- `if not label:` (labels are nonempty)
          else
            let hlines := extract_highlight_text p.getTextClip h.rect
            if hlines.isEmpty then acc
            else acc ++ [(⟨h.rect, label, hlines⟩ : PageHighlight)])
    []
  if page_highlights.isEmpty then []
  else
    let lns := extract_lines p.blocks
    let tlines := lns.map fun l =>
      let a := annotateLine l.2 (page_highlights.map PageHighlight.rect)
      (⟨l.2, a.has_unhighlighted_gap, a.has_unhighlighted_after⟩ : LineInfo)
    let sorted_ph := page_highlights.insertionSort phLt
    let grouped := groupHighlights tlines sorted_ph
    grouped.map fun g => ⟨pi, [g.color], String.intercalate " " g.lines⟩

/-- The page loop of `main` (lines 170-256) before de-duplication. -/
def paletteCandidates (highlights : List Highlight) :
    ℕ → List PPage → List OutputRec
  | _, [] => []
  | pi, p :: rest =>
    pageOutputs highlights pi p ++ paletteCandidates highlights (pi + 1) rest

/-- The whole palette pipeline result sequence (`results` at line 258). -/
def palette_results (doc : List PPage) : List OutputRec :=
  dedupRun (paletteCandidates (collectHighlights 1 doc) 1 doc)

/-! ### The comment-reference pipeline (`extract_comments.py`) -/

/-- The chunking `vertices[i : i + 4]` for `i = 0, 4, 8, ...` of
`quad_rects` (lines 41-42), with each nonempty chunk held as head plus
(at most three) remaining points. -/
def chunk4 {α : Type} : List α → List (α × List α)
  | [] => []
  | [a] => [(a, [])]
  | [a, b] => [(a, [b])]
  | [a, b, c] => [(a, [b, c])]
  | a :: b :: c :: d :: rest => (a, [b, c, d]) :: chunk4 rest

/-- The axis-aligned bounding rectangle
`Rect(min(xs), min(ys), max(xs), max(ys))` of one chunk of quad vertices
(`quad_rects`, lines 43-45). -/
def quadRect (q : (ℚ × ℚ) × List (ℚ × ℚ)) : Rect :=
  ⟨(q.2.map Prod.fst).foldl min q.1.1,
   (q.2.map Prod.snd).foldl min q.1.2,
   (q.2.map Prod.fst).foldl max q.1.1,
   (q.2.map Prod.snd).foldl max q.1.2⟩

/-- Strict lexicographic order on `(y0, x0)`; sorting with it models the
stable `rects.sort(key=lambda r: (r.y0, r.x0))` (line 46). -/
def rectLt (a b : Rect) : Prop :=
  a.y0 < b.y0 ∨ (a.y0 = b.y0 ∧ a.x0 < b.x0)

instance (a b : Rect) : Decidable (rectLt a b) := by
  unfold rectLt; infer_instance

/-- `quad_rects(pymupdf, vertices)` from `extract_comments.py`
(lines 37-47); the early return for falsy `vertices` coincides with
`chunk4 [] = []`. -/
def quad_rects (vertices : List (ℚ × ℚ)) : List Rect :=
  ((chunk4 vertices).map quadRect).insertionSort rectLt

/-- An annotation as seen by `extract_comments.py`: `vertices = []` models
a missing or empty `annot.vertices`, `content = ""` a missing
`info["content"]` (both falsy in Python). -/
structure CAnnot where
  rect : Rect
  vertices : List (ℚ × ℚ)
  content : String

/-- `extract_reference(page, annot, pymupdf)` from `extract_comments.py`
(lines 50-62); `getText` models `page.get_text("text", clip=rect)` and
`pyRstrip` models `str.rstrip()`. -/
def extract_reference (getText : Rect → String) (a : CAnnot) : String :=
  let rects := quad_rects a.vertices
  let rects := if rects.isEmpty then [a.rect] else rects
  let parts := rects.foldl
    (fun acc r =>
      let text := getText r
      if text.isEmpty then acc else acc ++ [pyRstrip text])
    []
  pyRstrip (String.intercalate "\n" parts)

/-- One record of the comment-reference pipeline's output (lines 81-87). -/
structure CommentRecord where
  page : ℕ
  reference : String
  text : String
  deriving Repr, DecidableEq

/-- One page of the comment-reference pipeline's document model. -/
structure CPage where
  getText : Rect → String
  annots : List CAnnot

/-- The per-page annotation loop of `main` in `extract_comments.py`
(lines 74-87): skip annotations with falsy content, emit one record each
otherwise. -/
def commentsForPage (pi : ℕ) (p : CPage) : List CommentRecord :=
  p.annots.foldl
    (fun acc a =>
      if a.content.isEmpty then acc
      else acc ++ [⟨pi, extract_reference p.getText a, a.content⟩])
    []

/-- The page loop of `main` in `extract_comments.py` (lines 72-87),
1-based page numbering. -/
def commentsLoop : ℕ → List CPage → List CommentRecord
  | _, [] => []
  | pi, p :: rest => commentsForPage pi p ++ commentsLoop (pi + 1) rest

/-- The comment-reference pipeline's result sequence (`results`, line 70). -/
def extract_comments_results (doc : List CPage) : List CommentRecord :=
  commentsLoop 1 doc

/-- Spec-side declarative description of `extract_reference` built from the
claim's words: bounding rectangles of the 4-point groups sorted by
`(top, left)` (fallback to the annotation's rectangle when there are no
vertices), per-rectangle clipped text with trailing whitespace stripped and
empty extractions dropped, joined with newlines, trailing whitespace
trimmed. -/
def referenceSpec (getText : Rect → String) (a : CAnnot) : String :=
  let rects :=
    if a.vertices = [] then [a.rect]
    else ((chunk4 a.vertices).map quadRect).insertionSort rectLt
  pyRstrip (String.intercalate "\n"
    (rects.filterMap fun r =>
      let t := getText r
      if t = "" then none else some (pyRstrip t)))

/-! ### Run outcomes and the missing-dependency exit -/

/-- The observable outcome of one script run: either `sys.exit(code)` after
printing `message` to stderr, or normal completion with a result
sequence. -/
inductive RunOutcome (α : Type) where
  | exited (code : ℕ) (message : String)
  | completed (results : α)

/-- The stderr message of `require_pymupdf` (both scripts). -/
def pymupdfMissingMsg : String :=
  "PyMuPDF not available. Install with: pip install pymupdf"

/-- `main` of `extract_comments.py` at the granularity of C9:
`require_pymupdf` (lines 14-20) runs before `pymupdf.open`, and when the
toolkit import fails it prints to stderr and exits with status 2. -/
def run_extract_comments (pymupdfAvailable : Bool) (doc : List CPage) :
    RunOutcome (List CommentRecord) :=
  if pymupdfAvailable then .completed (extract_comments_results doc)
  else .exited 2 pymupdfMissingMsg

/-- `main` of `extract_highlighted_lines.py` at the granularity of C9:
`require_pymupdf` (lines 16-22) runs before `pymupdf.open`, and when the
toolkit import fails it prints to stderr and exits with status 2. -/
def run_extract_highlighted_lines (pymupdfAvailable : Bool)
    (doc : List PPage) : RunOutcome (List OutputRec) :=
  if pymupdfAvailable then .completed (palette_results doc)
  else .exited 2 pymupdfMissingMsg

/-! ### The comment clusterer (spec section 4.4) -/

/-- An enumerated comment (spec section 3): `num` is the digit capture,
`text` the space-joined concatenation, `lines` the constituent lines. -/
structure Comment where
  num : String
  text : String
  lines : List String
  deriving Repr, DecidableEq

/-- Modelled from the spec: the repository under `src/` contains no
implementation of the comment clusterer (spec section 4.4); only the spec
describes it.  A line matches the pattern "one or more digits, a literal
dot, optional whitespace, then arbitrary remainder" exactly when its
maximal leading digit run is nonempty and is followed by a dot; the digit
capture is returned. -/
def numDotMatch (s : String) : Option String :=
  let ds := s.toList.takeWhile fun c => c.isDigit
  if ds.isEmpty then none
  else
    match s.toList.dropWhile (fun c => c.isDigit) with
    | '.' :: _ => some (String.mk ds)
    | _ => none

/-- Modelled from the spec (section 4.4): one step of the single pass.  A
matching line starts a new Comment, flushing the open one; a non-matching
line appends to the open Comment (space-joined text) and is dropped when no
Comment is open. -/
def clusterStep (st : Option Comment × List Comment) (line : String) :
    Option Comment × List Comment :=
  match numDotMatch line with
  | some n => (some ⟨n, line, [line]⟩, st.2 ++ st.1.toList)
  | none =>
    match st.1 with
    | some c => (some ⟨c.num, c.text ++ " " ++ line, c.lines ++ [line]⟩, st.2)
    | none => st

/-- Modelled from the spec (section 4.4): the single pass over the sorted
line sequence, flushing the final open Comment at end of page. -/
def cluster_comments (ls : List String) : List Comment :=
  let st := ls.foldl clusterStep (none, [])
  st.2 ++ st.1.toList

end PdfExtract

open PdfExtract

/-- C6: `intersects` is symmetric; it returns `true` exactly when the
rectangles are disjoint on no axis under closed-interval comparison; and two
well-formed rectangles sharing only a boundary edge (touching) intersect. -/
theorem intersects_symm_closed (a b : Rect)
    (ha : a.x0 ≤ a.x1 ∧ a.y0 ≤ a.y1) (hb : b.x0 ≤ b.x1 ∧ b.y0 ≤ b.y1) :
    intersects a b = intersects b a ∧
    (intersects a b = true ↔
      ¬(a.x1 < b.x0 ∨ b.x1 < a.x0 ∨ a.y1 < b.y0 ∨ b.y1 < a.y0)) ∧
    ((a.x1 = b.x0 ∧ a.y0 ≤ b.y1 ∧ b.y0 ≤ a.y1) → intersects a b = true) := by
  obtain ⟨hax, hay⟩ := ha
  obtain ⟨hbx, hby⟩ := hb
  refine ⟨?_, ?_, ?_⟩
  · show intersects a b = intersects b a
    have h : ∀ p q r s : Bool, (!(p || q || r || s)) = !(q || p || s || r) := by
      decide
    exact h _ _ _ _
  · simp only [intersects, Bool.not_eq_true', Bool.or_eq_false_iff,
      decide_eq_false_iff_not]
    tauto
  · rintro ⟨hx, hy1, hy2⟩
    simp only [intersects, Bool.not_eq_true', Bool.or_eq_false_iff,
      decide_eq_false_iff_not, not_lt]
    refine ⟨⟨⟨?_, ?_⟩, ?_⟩, ?_⟩ <;> linarith

/-- Witness for C6 at concrete touching rectangles. -/
theorem intersects_symm_closed_witness :
    intersects ⟨0, 0, 1, 1⟩ ⟨1, 0, 2, 1⟩ = true := by
  have h := intersects_symm_closed ⟨0, 0, 1, 1⟩ ⟨1, 0, 2, 1⟩
    (by constructor <;> norm_num) (by constructor <;> norm_num)
  exact h.2.2 ⟨rfl, by norm_num, by norm_num⟩

/-- C1 (amended): `should_merge_rects` on a same-line pair accepts iff the
horizontal gap is at most `max(6, 60% of prevHeight)`; on a different-line
pair it accepts iff the vertical gap is at most `max(4, 80% of prevHeight)`
and no line whose vertical extent overlaps the closed interval from the
previous rectangle's top to the next rectangle's top (this includes lines
touching either top, not only lines strictly between them) has
`has_unhighlighted_after` set. -/
theorem should_merge_rects_characterization (prev next : Rect)
    (lines : List LineInfo) :
    (sameLineP prev next →
      (should_merge_rects prev next lines = true ↔
        next.x0 - prev.x1 ≤ max 6 (prevHeight prev * 0.6))) ∧
    (¬ sameLineP prev next →
      (should_merge_rects prev next lines = true ↔
        (next.y0 - prev.y1 ≤ max 4 (prevHeight prev * 0.8) ∧
         ∀ l ∈ lines, l.bbox.y0 ≤ next.y0 → prev.y0 ≤ l.bbox.y1 →
           l.has_unhighlighted_after = false))) := by
  constructor
  · intro hs
    have hb : (next.y0 ≤ prev.y1 && next.y1 ≥ prev.y0
        || |next.y0 - prev.y0| ≤ max 1 (prev.y1 - prev.y0) * 0.5 : Bool) = true := by
      rcases hs with ⟨h1, h2⟩ | h3
      · simp [h1, h2]
      · simp only [prevHeight] at h3
        simp [h3]
    simp [should_merge_rects, hb, prevHeight]
  · intro hns
    have hb : (next.y0 ≤ prev.y1 && next.y1 ≥ prev.y0
        || |next.y0 - prev.y0| ≤ max 1 (prev.y1 - prev.y0) * 0.5 : Bool) = false := by
      simp only [sameLineP, prevHeight, not_or, not_and_or] at hns
      simp only [Bool.or_eq_false_iff, Bool.and_eq_false_iff]
      constructor
      · rcases hns.1 with h | h <;> simp [h]
      · simp [hns.2]
    simp only [should_merge_rects, hb]
    rw [if_neg (by simp)]
    simp only [prevHeight]
    by_cases hy : next.y0 - prev.y1 > 4 ⊔ (1 ⊔ (prev.y1 - prev.y0)) * 0.8
    · rw [if_pos hy]
      simp only [Bool.false_eq_true, false_iff, not_and]
      intro h1
      exact absurd h1 (not_le.mpr hy)
    · rw [if_neg hy]
      by_cases hbet : has_unhighlighted_after_between lines prev.y0 next.y0 = true
      · rw [if_pos hbet]
        simp only [has_unhighlighted_after_between, List.any_eq_true,
          Bool.and_eq_true, Bool.not_eq_true', Bool.or_eq_false_iff,
          decide_eq_false_iff_not, not_lt] at hbet
        obtain ⟨l, hl, ⟨hy0, hy1⟩, hafter⟩ := hbet
        simp only [Bool.false_eq_true, false_iff, not_and]
        intro _ hall
        exact absurd hafter (by simp [hall l hl hy0 hy1])
      · rw [if_neg hbet]
        simp only [has_unhighlighted_after_between, List.any_eq_true, not_exists,
          Bool.and_eq_true, Bool.not_eq_true', Bool.or_eq_false_iff,
          decide_eq_false_iff_not, not_lt, not_and] at hbet
        simp only [true_iff]
        refine ⟨not_lt.mp hy, fun l hl h0 h1 => ?_⟩
        exact Bool.eq_false_iff.mpr (hbet l hl ⟨h0, h1⟩)

/-- C1 counterexample: for `prev = (0,0,10,10)`, `next = (0,16,10,26)` and a
single flagged line with bbox `(0,-2,10,0)`, the pair is on different lines,
the vertical gap (6) is within `max(4, 80% of prevHeight) = 8`, and no line
lies strictly between the two tops (the flagged line ends exactly at the
previous rectangle's top) — so the claim as stated demands acceptance — yet
`should_merge_rects` rejects, because its intervening-line scan also catches
lines that merely touch the closed interval between the tops. -/
theorem should_merge_rects_strict_between_cex :
    ¬ sameLineP ⟨0, 0, 10, 10⟩ ⟨0, 16, 10, 26⟩ ∧
    (⟨0, 16, 10, 26⟩ : Rect).y0 - (⟨0, 0, 10, 10⟩ : Rect).y1 ≤
      max 4 (prevHeight ⟨0, 0, 10, 10⟩ * 0.8) ∧
    ¬ lineStrictlyBetweenTops ⟨⟨0, -2, 10, 0⟩, false, true⟩ 0 16 ∧
    should_merge_rects ⟨0, 0, 10, 10⟩ ⟨0, 16, 10, 26⟩
      [⟨⟨0, -2, 10, 0⟩, false, true⟩] = false := by
  refine ⟨?_, ?_, ?_, ?_⟩
  · norm_num [sameLineP, prevHeight]
  · norm_num [prevHeight]
  · norm_num [lineStrictlyBetweenTops]
  · norm_num [should_merge_rects, has_unhighlighted_after_between, List.any]

/-- Witness for C1: the characterization applied to a concrete same-line
pair with horizontal gap within the threshold. -/
theorem should_merge_rects_characterization_witness :
    should_merge_rects ⟨0, 0, 10, 10⟩ ⟨0, 2, 10, 12⟩ [] = true := by
  have h := (should_merge_rects_characterization ⟨0, 0, 10, 10⟩ ⟨0, 2, 10, 12⟩ []).1
    (Or.inl ⟨by norm_num, by norm_num⟩)
  exact h.mpr (by norm_num [prevHeight])

/-- The interval-merging fold with a nonempty accumulator equals the
structural `mergeAux` carrying the open last interval. -/
lemma foldl_mergeFold_concat (l : List (ℚ × ℚ)) :
    ∀ (acc : List (ℚ × ℚ)) (s e : ℚ),
      List.foldl mergeFold (acc ++ [(s, e)]) l = acc ++ mergeAux s e l := by
  induction l with
  | nil => intro acc s e; simp [mergeAux]
  | cons iv rest ih =>
    intro acc s e
    rw [List.foldl_cons]
    have hlast : (acc ++ [(s, e)]).getLast? = some (s, e) := List.getLast?_concat _
    have hdrop : (acc ++ [(s, e)]).dropLast = acc := List.dropLast_concat
    by_cases hcmp : (e < iv.1)
    · have hstep : mergeFold (acc ++ [(s, e)]) iv = (acc ++ [(s, e)]) ++ [iv] := by
        simp [mergeFold, hlast, hcmp]
      rw [hstep]
      have : (acc ++ [(s, e)]) ++ [iv] = (acc ++ [(s, e)]) ++ [(iv.1, iv.2)] := by simp
      rw [this, ih]
      simp [mergeAux, hcmp]
    · have hstep : mergeFold (acc ++ [(s, e)]) iv = acc ++ [(s, max e iv.2)] := by
        simp [mergeFold, hlast, hdrop, hcmp]
      rw [hstep, ih]
      simp [mergeAux, hcmp]

/-- `mergeIntervals` on a nonempty list is `mergeAux` opened at its head. -/
lemma mergeIntervals_eq_mergeAux (iv : ℚ × ℚ) (l : List (ℚ × ℚ)) :
    mergeIntervals (iv :: l) = mergeAux iv.1 iv.2 l := by
  have h0 : mergeFold [] iv = [] ++ [(iv.1, iv.2)] := by simp [mergeFold]
  rw [mergeIntervals, List.foldl_cons, h0, foldl_mergeFold_concat]
  simp

/-- `mergeAux` emits its carried start as the head of its output. -/
lemma mergeAux_head (l : List (ℚ × ℚ)) :
    ∀ (s e : ℚ), ∃ e2, (mergeAux s e l).head? = some (s, e2) := by
  induction l with
  | nil => intro s e; exact ⟨e, rfl⟩
  | cons iv rest ih =>
    intro s e
    by_cases hcmp : (e < iv.1)
    · simp [mergeAux, hcmp]
    · simpa [mergeAux, hcmp] using ih s (max e iv.2)

/-- Consecutive intervals emitted by `mergeAux` are strictly separated:
each next start lies strictly past the previous end, i.e. touching or
overlapping inputs were coalesced. -/
lemma mergeAux_chain (l : List (ℚ × ℚ)) :
    ∀ (s e : ℚ), List.Chain' (fun a b => a.2 < b.1) (mergeAux s e l) := by
  induction l with
  | nil => intro s e; simp [mergeAux]
  | cons iv rest ih =>
    intro s e
    by_cases hcmp : (e < iv.1)
    · rw [mergeAux, if_pos hcmp, List.chain'_cons']
      refine ⟨?_, ih iv.1 iv.2⟩
      intro b hb
      obtain ⟨e2, he2⟩ := mergeAux_head rest iv.1 iv.2
      rw [he2] at hb
      cases hb
      exact hcmp
    · rw [mergeAux, if_neg hcmp]
      exact ih s (max e iv.2)

/-- The merged interval list is strictly separated. -/
lemma mergeIntervals_chain (l : List (ℚ × ℚ)) :
    List.Chain' (fun a b => a.2 < b.1) (mergeIntervals l) := by
  cases l with
  | nil => simp [mergeIntervals]
  | cons iv rest => rw [mergeIntervals_eq_mergeAux]; exact mergeAux_chain _ _ _

/-- A single intersecting highlight with positive-width overlap yields
exactly its overlap interval. -/
lemma mergedIntervals_single (lr h : Rect) (hi : intersects lr h = true)
    (hlt : max lr.x0 h.x0 < min lr.x1 h.x1) :
    mergedIntervals lr [h] = [(max lr.x0 h.x0, min lr.x1 h.x1)] := by
  simp [mergedIntervals, lineIntervals, overlapStep, hi, hlt, sortIntervals,
    List.insertionSort, mergeIntervals, mergeFold]

/-- C2 (amended): for a line intersecting at least one highlight, the
coverage pass derives its fields from the sorted-and-merged positive-width
overlap intervals — `has_unhighlighted_gap` iff covered length divided by
`max(1, line width)` is below 0.95, `has_unhighlighted_after` iff the line's
right edge minus the rightmost merged end exceeds `max(6, 10% of width)`,
and the merged intervals are strictly separated (touching or overlapping
ones coalesce).  A highlight covering 100% of the line's horizontal extent
gives `has_unhighlighted_gap = false` provided the line width is at least
0.95 (the ratio divides by `max(1, width)`, so a full cover of a narrower
line still falls below 0.95); one covering only the left 50% gives
`has_unhighlighted_gap = true` with `highlighted_max_x` at the midpoint. -/
theorem annotateLine_coverage (lr : Rect) (hs : List Rect) (h : Rect) :
    ((hs.any fun hh => intersects lr hh) = true →
      (annotateLine lr hs).highlighted_any = true ∧
      (annotateLine lr hs).highlighted_max_x = maxEnd (mergedIntervals lr hs) ∧
      ((annotateLine lr hs).has_unhighlighted_gap = true ↔
        ((mergedIntervals lr hs).map fun p => p.2 - p.1).sum /
            max 1 (lr.x1 - lr.x0) < 0.95) ∧
      (∀ m, maxEnd (mergedIntervals lr hs) = some m →
        ((annotateLine lr hs).has_unhighlighted_after = true ↔
          lr.x1 - m > max 6 (max 1 (lr.x1 - lr.x0) * 0.1))) ∧
      List.Chain' (fun a b => a.2 < b.1) (mergedIntervals lr hs)) ∧
    (intersects lr h = true → h.x0 ≤ lr.x0 → lr.x1 ≤ h.x1 →
      0.95 ≤ lr.x1 - lr.x0 →
      (annotateLine lr [h]).has_unhighlighted_gap = false ∧
      (annotateLine lr [h]).highlighted_any = true) ∧
    (intersects lr h = true → h.x0 ≤ lr.x0 → h.x1 = (lr.x0 + lr.x1) / 2 →
      lr.x0 < lr.x1 →
      (annotateLine lr [h]).has_unhighlighted_gap = true ∧
      (annotateLine lr [h]).highlighted_max_x = some ((lr.x0 + lr.x1) / 2)) := by
  refine ⟨?_, ?_, ?_⟩
  · intro hany
    refine ⟨?_, ?_, ?_, ?_, ?_⟩
    · simp [annotateLine, hany]
    · simp [annotateLine, hany]
    · simp [annotateLine, hany]
    · intro m hm
      simp [annotateLine, hany, hm]
    · simpa [mergedIntervals] using
        mergeIntervals_chain (sortIntervals (lineIntervals lr hs))
  · intro hi hx0 hx1 hw
    have hxlt : lr.x0 < lr.x1 := by linarith
    have hlt : max lr.x0 h.x0 < min lr.x1 h.x1 := by
      rw [max_eq_left hx0, min_eq_left hx1]; exact hxlt
    have hm := mergedIntervals_single lr h hi hlt
    have hany : ([h].any fun hh => intersects lr hh) = true := by simp [hi]
    have hratio : ¬ ((min lr.x1 h.x1 - max lr.x0 h.x0) /
        max 1 (lr.x1 - lr.x0) < 0.95) := by
      rw [max_eq_left hx0, min_eq_left hx1]
      rcases le_total (lr.x1 - lr.x0) 1 with hle | hle
      · rw [max_eq_left hle]
        rw [div_one]
        linarith
      · rw [max_eq_right hle]
        rw [div_self (by linarith)]
        norm_num
    constructor
    · simp [annotateLine, hany, hm, hratio]
    · simp [annotateLine, hany]
  · intro hi hx0 hmid hxlt
    have hlt : max lr.x0 h.x0 < min lr.x1 h.x1 := by
      rw [max_eq_left hx0, hmid, min_eq_right (by linarith)]
      linarith
    have hm := mergedIntervals_single lr h hi hlt
    have hany : ([h].any fun hh => intersects lr hh) = true := by simp [hi]
    have hmin : min lr.x1 h.x1 = (lr.x0 + lr.x1) / 2 := by
      rw [hmid, min_eq_right (by linarith)]
    have hratio : (min lr.x1 h.x1 - max lr.x0 h.x0) /
        max 1 (lr.x1 - lr.x0) < 0.95 := by
      rw [max_eq_left hx0, hmin]
      rcases le_total (lr.x1 - lr.x0) 1 with hle | hle
      · rw [max_eq_left hle, div_one]
        linarith
      · rw [max_eq_right hle]
        rw [div_lt_iff₀ (by linarith)]
        nlinarith
    constructor
    · simp [annotateLine, hany, hm, hratio]
    · simp [annotateLine, hany, hm, maxEnd, hmin]

/-- C2 counterexample: a highlight covering 100% of the horizontal extent of
a line of width 1/2 — the claim says `has_unhighlighted_gap = false` for any
full cover — yet the flag is set, because the coverage ratio divides the
covered length 1/2 by `max(1, 1/2) = 1`, giving 0.5 < 0.95. -/
theorem annotateLine_thin_line_cex :
    intersects ⟨0, 0, 1/2, 10⟩ ⟨0, 0, 1/2, 10⟩ = true ∧
    (⟨0, 0, 1/2, 10⟩ : Rect).x0 ≤ (⟨0, 0, 1/2, 10⟩ : Rect).x0 ∧
    (⟨0, 0, 1/2, 10⟩ : Rect).x1 ≤ (⟨0, 0, 1/2, 10⟩ : Rect).x1 ∧
    (annotateLine ⟨0, 0, 1/2, 10⟩ [⟨0, 0, 1/2, 10⟩]).has_unhighlighted_gap
      = true := by
  refine ⟨by norm_num [intersects], le_refl _, le_refl _, ?_⟩
  norm_num [annotateLine, mergedIntervals, lineIntervals, intersects, overlapStep,
    sortIntervals, mergeIntervals, mergeFold, maxEnd, List.insertionSort,
    List.orderedInsert, intervalLt, List.any, List.foldl]

/-- Witness for C2: the full-cover clause applied to a width-10 line fully
covered by one highlight. -/
theorem annotateLine_coverage_witness :
    (annotateLine ⟨0, 0, 10, 10⟩ [⟨0, 0, 10, 10⟩]).has_unhighlighted_gap = false ∧
    (annotateLine ⟨0, 0, 10, 10⟩ [⟨0, 0, 10, 10⟩]).highlighted_any = true :=
  (annotateLine_coverage ⟨0, 0, 10, 10⟩ [⟨0, 0, 10, 10⟩] ⟨0, 0, 10, 10⟩).2.1
    (by norm_num [intersects]) (le_refl _) (le_refl _) (by norm_num)

/-- C3: during the grouping fold, a candidate merges into the open group iff
its classified color equals the group's color and `should_merge_rects`
accepts the pair (group's most recently added rectangle, candidate's
rectangle); on a merge the group's bounding rectangle becomes the
coordinate-wise union, the candidate's lines are appended in order, and the
last-rectangle pointer becomes the candidate's own rectangle (never the
union); on a rejection a fresh group is opened from the candidate. -/
theorem groupStep_characterization (tlines : List LineInfo)
    (grouped : List HGroup) (item : PageHighlight) (g : HGroup)
    (hlast : grouped.getLast? = some g) :
    ((g.color = item.color ∧
        should_merge_rects g.last_rect item.rect tlines = true) →
      groupStep tlines grouped item =
        grouped.dropLast ++
          [{ rect := rectUnion g.rect item.rect
             color := g.color
             lines := g.lines ++ item.lines
             last_rect := item.rect }]) ∧
    (¬ (g.color = item.color ∧
        should_merge_rects g.last_rect item.rect tlines = true) →
      groupStep tlines grouped item =
        grouped ++ [⟨item.rect, item.color, item.lines, item.rect⟩]) := by
  constructor
  · rintro ⟨hc, hm⟩
    simp [groupStep, hlast, hc, hm]
  · intro hn
    have hb : (g.color == item.color &&
        should_merge_rects g.last_rect item.rect tlines) = false := by
      rcases not_and_or.mp hn with h | h
      · simp [beq_eq_false_iff_ne.mpr h]
      · simp [Bool.eq_false_iff.mpr h]
    simp [groupStep, hlast, hb]

/-- Witness for C3: a same-color mergeable candidate extends the single open
group, unioning the bounding rectangle, appending the lines, and advancing
the last-rectangle pointer to the candidate's own rectangle. -/
theorem groupStep_characterization_witness :
    groupStep [] [⟨⟨0, 0, 1, 1⟩, "yellow", ["a"], ⟨0, 0, 1, 1⟩⟩]
        ⟨⟨0, 1/2, 1, 3/2⟩, "yellow", ["b"]⟩ =
      [⟨rectUnion ⟨0, 0, 1, 1⟩ ⟨0, 1/2, 1, 3/2⟩, "yellow", ["a", "b"],
        ⟨0, 1/2, 1, 3/2⟩⟩] := by
  have h := (groupStep_characterization []
      [⟨⟨0, 0, 1, 1⟩, "yellow", ["a"], ⟨0, 0, 1, 1⟩⟩]
      ⟨⟨0, 1/2, 1, 3/2⟩, "yellow", ["b"]⟩
      ⟨⟨0, 0, 1, 1⟩, "yellow", ["a"], ⟨0, 0, 1, 1⟩⟩ rfl).1
    ⟨rfl, by norm_num [should_merge_rects]⟩
  simpa using h

/-- C4: the comment clusterer (modelled from spec section 4.4) on
`["1. Foo", "continued", "2. Bar"]` produces exactly the two Comments
`{num:"1", text:"1. Foo continued"}` and `{num:"2", text:"2. Bar"}`; a line
matching "digits, dot, optional whitespace, remainder" starts a new Comment
flushing the open one, a non-matching line appends to the open Comment and
is dropped when none is open, lines before the first numbered line are
dropped, and the final open Comment is flushed at end of page. -/
theorem cluster_comments_spec :
    cluster_comments ["1. Foo", "continued", "2. Bar"] =
      [⟨"1", "1. Foo continued", ["1. Foo", "continued"]⟩,
       ⟨"2", "2. Bar", ["2. Bar"]⟩] ∧
    numDotMatch "1. Foo" = some "1" ∧
    numDotMatch "continued" = none ∧
    numDotMatch "2. Bar" = some "2" ∧
    (∀ st line n, numDotMatch line = some n →
      clusterStep st line = (some ⟨n, line, [line]⟩, st.2 ++ st.1.toList)) ∧
    (∀ st line, numDotMatch line = none → st.1 = none →
      clusterStep st line = st) ∧
    (∀ st line c, numDotMatch line = none → st.1 = some c →
      clusterStep st line =
        (some ⟨c.num, c.text ++ " " ++ line, c.lines ++ [line]⟩, st.2)) ∧
    (∀ ls, cluster_comments ls =
      (ls.foldl clusterStep (none, [])).2 ++
        (ls.foldl clusterStep (none, [])).1.toList) ∧
    cluster_comments ["before", "1. A"] = [⟨"1", "1. A", ["1. A"]⟩] := by
  refine ⟨by decide, by decide, by decide, by decide, ?_, ?_, ?_, fun ls => rfl,
    by decide⟩
  · intro st line n h
    simp [clusterStep, h]
  · intro st line h h1
    simp [clusterStep, h, h1]
  · intro st line c h h1
    simp [clusterStep, h, h1]

/-- Witness for C4: the numbered-line step applied at a concrete state. -/
theorem cluster_comments_spec_witness :
    clusterStep (none, []) "1. A" = (some ⟨"1", "1. A", ["1. A"]⟩, []) := by
  have h := cluster_comments_spec.2.2.2.2.1 (none, ([] : List Comment)) "1. A" "1"
    (by decide)
  simpa using h

/-- C10: a highlight touching a line's bbox only along a shared vertical
edge passes the closed intersection test yet contributes no positive-width
interval, so the merged list is empty and the maximum of merged ends is
taken over an empty collection — modelled by `highlighted_max_x = none`; at
this input the Python `max(end for _, end in merged)` (line 222) raises
`ValueError`, contradicting the claim that the maximum is never taken over
an empty collection. -/
theorem highlighted_max_x_empty_bug :
    intersects ⟨0, 0, 10, 10⟩ ⟨10, 0, 20, 10⟩ = true ∧
    (annotateLine ⟨0, 0, 10, 10⟩ [⟨10, 0, 20, 10⟩]).highlighted_any = true ∧
    lineIntervals ⟨0, 0, 10, 10⟩ [⟨10, 0, 20, 10⟩] = [] ∧
    mergedIntervals ⟨0, 0, 10, 10⟩ [⟨10, 0, 20, 10⟩] = [] ∧
    (annotateLine ⟨0, 0, 10, 10⟩ [⟨10, 0, 20, 10⟩]).highlighted_max_x
      = none := by
  refine ⟨by norm_num [intersects], ?_, ?_, ?_, ?_⟩ <;>
    norm_num [annotateLine, mergedIntervals, lineIntervals, intersects, overlapStep,
      sortIntervals, mergeIntervals, mergeFold, maxEnd, List.insertionSort,
      List.orderedInsert, intervalLt, List.any, List.foldl]


/-- Python's `min` fold never increases the key. -/
lemma pickNearest_le (c : RGB) :
    ∀ (rest : List (String × RGB)) (e : String × RGB),
      dist2 c (pickNearest c e rest).2 ≤ dist2 c e.2 := by
  intro rest
  induction rest with
  | nil => intro e; exact le_refl _
  | cons p ps ih =>
    intro e
    show dist2 c (pickNearest c (if dist2 c p.2 < dist2 c e.2 then p else e) ps).2 ≤ _
    by_cases hl : dist2 c p.2 < dist2 c e.2
    · rw [if_pos hl]
      exact le_trans (ih p) (le_of_lt hl)
    · rw [if_neg hl]
      exact ih e

/-- Python's `min` fold returns the first element attaining the minimal
key: the list splits into a strictly-larger prefix, the result, and a
no-smaller suffix. -/
lemma pickNearest_split (c : RGB) :
    ∀ (rest : List (String × RGB)) (e : String × RGB),
      ∃ pre post, e :: rest = pre ++ (pickNearest c e rest) :: post ∧
        (∀ p ∈ pre, dist2 c (pickNearest c e rest).2 < dist2 c p.2) ∧
        (∀ p ∈ post, dist2 c (pickNearest c e rest).2 ≤ dist2 c p.2) := by
  intro rest
  induction rest with
  | nil =>
    intro e
    exact ⟨[], [], rfl, by simp, by simp⟩
  | cons p ps ih =>
    intro e
    have hstep : pickNearest c e (p :: ps) =
        pickNearest c (if dist2 c p.2 < dist2 c e.2 then p else e) ps := rfl
    by_cases hl : dist2 c p.2 < dist2 c e.2
    · rw [hstep, if_pos hl] at *
      obtain ⟨pre, post, hsplit, hpre, hpost⟩ := ih p
      refine ⟨e :: pre, post, ?_, ?_, hpost⟩
      · rw [List.cons_append, ← hsplit]
      · intro q hq
        rcases List.mem_cons.mp hq with rfl | hq
        · exact lt_of_le_of_lt (pickNearest_le c ps p) hl
        · exact hpre q hq
    · rw [hstep, if_neg hl] at *
      obtain ⟨pre, post, hsplit, hpre, hpost⟩ := ih e
      cases pre with
      | nil =>
        simp only [List.nil_append] at hsplit
        injection hsplit with hE hPs
        refine ⟨[], p :: ps, ?_, by simp, ?_⟩
        · rw [List.nil_append, ← hE]
        · intro x hx
          rcases List.mem_cons.mp hx with rfl | hx
          · rw [← hE]
            exact le_of_not_lt hl
          · exact hpost x (hPs ▸ hx)
      | cons q pre1 =>
        rw [List.cons_append] at hsplit
        injection hsplit with hq hps
        refine ⟨e :: p :: pre1, post, ?_, ?_, hpost⟩
        · rw [List.cons_append, List.cons_append, ← hps]
        · intro x hx
          have hqpre : dist2 c (pickNearest c e ps).2 < dist2 c e.2 := by
            have h1 := hpre q (List.mem_cons_self _ _)
            rwa [← hq] at h1
          rcases List.mem_cons.mp hx with rfl | hx
          · exact hqpre
          rcases List.mem_cons.mp hx with rfl | hx
          · exact lt_of_lt_of_le hqpre (le_of_not_lt hl)
          · exact hpre x (List.mem_cons_of_mem _ hx)

/-- C5: for every RGB triple, `classify_nearest_color` returns exactly one
label from the eight-entry palette whose Euclidean RGB distance to the
input is minimal, with no rejection threshold; ties resolve to the entry
iterated first in palette declaration order (every earlier entry is
strictly farther); and the exact reference RGB of each palette entry
classifies to that entry's label. -/
theorem classify_nearest_color_spec :
    ∀ c : RGB,
      (∃ pre e post, color_table = pre ++ e :: post ∧
        classify_nearest_color (some c) = some e.1 ∧
        (∀ p ∈ pre, Real.sqrt ((dist2 c e.2 : ℚ) : ℝ) <
          Real.sqrt ((dist2 c p.2 : ℚ) : ℝ)) ∧
        (∀ p ∈ color_table, Real.sqrt ((dist2 c e.2 : ℚ) : ℝ) ≤
          Real.sqrt ((dist2 c p.2 : ℚ) : ℝ))) ∧
      (c = (1, 1, 0) → classify_nearest_color (some c) = some "yellow") ∧
      (c = (0, 1, 0) → classify_nearest_color (some c) = some "green") ∧
      (c = (0, 1, 1) → classify_nearest_color (some c) = some "blue") ∧
      (c = (0.6, 0.8, 1) → classify_nearest_color (some c) = some "light-blue") ∧
      (c = (1, 0, 0) → classify_nearest_color (some c) = some "red") ∧
      (c = (1, 0.6, 0) → classify_nearest_color (some c) = some "orange") ∧
      (c = (0.6, 0.2, 0.8) → classify_nearest_color (some c) = some "purple") ∧
      (c = (1, 0.6, 0.8) → classify_nearest_color (some c) = some "pink") := by
  intro c
  have hd0 : ∀ x : RGB, (0 : ℚ) ≤ dist2 c x := by
    intro x
    unfold dist2
    positivity
  constructor
  · obtain ⟨pre, post, hsplit, hpre, hpost⟩ :=
      pickNearest_split c color_table.tail ("yellow", ((1 : ℚ), (1 : ℚ), (0 : ℚ)))
    have htab : color_table =
        ("yellow", ((1 : ℚ), (1 : ℚ), (0 : ℚ))) :: color_table.tail := rfl
    have hsplit2 : color_table = pre ++
        pickNearest c ("yellow", ((1 : ℚ), (1 : ℚ), (0 : ℚ))) color_table.tail
          :: post := htab.trans hsplit
    refine ⟨pre, _, post, hsplit2, rfl, ?_, ?_⟩
    · intro p hp
      exact Real.sqrt_lt_sqrt (by exact_mod_cast hd0 _) (by exact_mod_cast hpre p hp)
    · intro p hp
      rw [hsplit2] at hp
      rcases List.mem_append.mp hp with hp | hp
      · exact le_of_lt (Real.sqrt_lt_sqrt (by exact_mod_cast hd0 _)
          (by exact_mod_cast hpre p hp))
      · rcases List.mem_cons.mp hp with rfl | hp
        · exact le_refl _
        · exact Real.sqrt_le_sqrt (by exact_mod_cast hpost p hp)
  · refine ⟨?_, ?_, ?_, ?_, ?_, ?_, ?_, ?_⟩
    · rintro rfl
      norm_num [classify_nearest_color, color_table, pickNearest, dist2, List.foldl]
    · rintro rfl
      norm_num [classify_nearest_color, color_table, pickNearest, dist2, List.foldl]
    · rintro rfl
      norm_num [classify_nearest_color, color_table, pickNearest, dist2, List.foldl]
    · rintro rfl
      norm_num [classify_nearest_color, color_table, pickNearest, dist2, List.foldl]
    · rintro rfl
      norm_num [classify_nearest_color, color_table, pickNearest, dist2, List.foldl]
    · rintro rfl
      norm_num [classify_nearest_color, color_table, pickNearest, dist2, List.foldl]
    · rintro rfl
      norm_num [classify_nearest_color, color_table, pickNearest, dist2, List.foldl]
    · rintro rfl
      norm_num [classify_nearest_color, color_table, pickNearest, dist2, List.foldl]

/-- Witness for C5: the exact-reference clause at yellow. -/
theorem classify_nearest_color_spec_witness :
    classify_nearest_color (some (1, 1, 0)) = some "yellow" :=
  (classify_nearest_color_spec (1, 1, 0)).2.1 rfl


/-- The per-page annotation fold equals filter-then-map. -/
lemma annots_foldl_eq (getText : Rect → String) (pi : ℕ) :
    ∀ (l : List CAnnot) (acc : List CommentRecord),
      l.foldl (fun acc a =>
        if a.content.isEmpty then acc
        else acc ++ [⟨pi, extract_reference getText a, a.content⟩]) acc =
      acc ++ (l.filter fun a => !a.content.isEmpty).map
        (fun a => ⟨pi, extract_reference getText a, a.content⟩) := by
  intro l
  induction l with
  | nil => intro acc; simp
  | cons a as ih =>
    intro acc
    by_cases h : a.content.isEmpty
    · simp [List.foldl_cons, List.filter_cons, h, ih]
    · simp [List.foldl_cons, List.filter_cons, h, ih]

/-- The per-rectangle text-collection fold equals a filterMap. -/
lemma parts_foldl_eq (getText : Rect → String) :
    ∀ (l : List Rect) (acc : List String),
      l.foldl (fun acc r =>
        let text := getText r
        if text.isEmpty then acc else acc ++ [pyRstrip text]) acc =
      acc ++ l.filterMap (fun r =>
        let t := getText r
        if t = "" then none else some (pyRstrip t)) := by
  intro l
  induction l with
  | nil => intro acc; simp
  | cons r rs ih =>
    intro acc
    by_cases h : (getText r).isEmpty
    · have h2 : getText r = "" := (String.isEmpty_iff _).mp h
      simp only [List.foldl_cons, List.filterMap_cons]
      simp [h, h2, ih]
      rfl
    · have h2 : ¬ getText r = "" := fun he => h ((String.isEmpty_iff _).mpr he)
      simp only [List.foldl_cons, List.filterMap_cons]
      simp [h, h2, ih]

/-- Chunking yields no chunk only for the empty vertex list. -/
lemma chunk4_nil_iff {α : Type} : ∀ v : List α, chunk4 v = [] ↔ v = [] := by
  intro v
  match v with
  | [] => simp [chunk4]
  | [a] => simp [chunk4]
  | [a, b] => simp [chunk4]
  | [a, b, c] => simp [chunk4]
  | a :: b :: c :: d :: rest => simp [chunk4]

/-- `quad_rects` is empty exactly when the vertex list is empty, so the
code's fallback on empty `rects` coincides with the spec's fallback on
missing vertices. -/
lemma quad_rects_isEmpty_iff (v : List (ℚ × ℚ)) :
    (quad_rects v).isEmpty = true ↔ v = [] := by
  rw [List.isEmpty_iff, quad_rects]
  constructor
  · intro h
    have hlen := congrArg List.length h
    rw [List.length_insertionSort, List.length_map] at hlen
    exact (chunk4_nil_iff v).mp (List.length_eq_zero.mp hlen)
  · intro h
    subst h
    simp [chunk4]

/-- The source's `extract_reference` computes exactly the claim's
declarative description. -/
lemma extract_reference_eq_referenceSpec (getText : Rect → String)
    (a : CAnnot) : extract_reference getText a = referenceSpec getText a := by
  rw [extract_reference, referenceSpec]
  by_cases hv : a.vertices = []
  · rw [if_pos ((quad_rects_isEmpty_iff _).mpr hv), if_pos hv]
    have h := parts_foldl_eq getText [a.rect] []
    simp only [List.nil_append] at h
    rw [h]
  · rw [if_neg (fun h => hv ((quad_rects_isEmpty_iff _).mp h)), if_neg hv]
    have h := parts_foldl_eq getText (quad_rects a.vertices) []
    simp only [List.nil_append] at h
    rw [h, quad_rects]

/-- A `min` fold is bounded by its initial value. -/
lemma foldl_min_le_init : ∀ (l : List ℚ) (a : ℚ), l.foldl min a ≤ a := by
  intro l
  induction l with
  | nil => intro a; exact le_refl _
  | cons x xs ih =>
    intro a
    exact le_trans (ih (min a x)) (min_le_left _ _)

/-- A `min` fold is bounded by every list element. -/
lemma foldl_min_le_mem : ∀ (l : List ℚ) (a x : ℚ), x ∈ l → l.foldl min a ≤ x := by
  intro l
  induction l with
  | nil => intro a x hx; cases hx
  | cons y ys ih =>
    intro a x hx
    rcases List.mem_cons.mp hx with rfl | hx
    · exact le_trans (foldl_min_le_init ys (min a x)) (min_le_right _ _)
    · exact ih (min a y) x hx

/-- A `min` fold attains its value at the initial value or a list element. -/
lemma foldl_min_mem : ∀ (l : List ℚ) (a : ℚ),
    l.foldl min a = a ∨ l.foldl min a ∈ l := by
  intro l
  induction l with
  | nil => intro a; exact Or.inl rfl
  | cons x xs ih =>
    intro a
    rcases ih (min a x) with h | h
    · rcases le_total a x with hax | hax
      · rw [List.foldl_cons, h, min_eq_left hax]
        exact Or.inl rfl
      · rw [List.foldl_cons, h, min_eq_right hax]
        exact Or.inr (List.mem_cons_self _ _)
    · exact Or.inr (List.mem_cons_of_mem _ h)

/-- A `max` fold dominates its initial value. -/
lemma foldl_max_ge_init : ∀ (l : List ℚ) (a : ℚ), a ≤ l.foldl max a := by
  intro l
  induction l with
  | nil => intro a; exact le_refl _
  | cons x xs ih =>
    intro a
    exact le_trans (le_max_left _ _) (ih (max a x))

/-- A `max` fold dominates every list element. -/
lemma foldl_max_ge_mem : ∀ (l : List ℚ) (a x : ℚ), x ∈ l → x ≤ l.foldl max a := by
  intro l
  induction l with
  | nil => intro a x hx; cases hx
  | cons y ys ih =>
    intro a x hx
    rcases List.mem_cons.mp hx with rfl | hx
    · exact le_trans (le_max_right _ _) (foldl_max_ge_init ys (max a x))
    · exact ih (max a y) x hx

/-- A `max` fold attains its value at the initial value or a list element. -/
lemma foldl_max_mem : ∀ (l : List ℚ) (a : ℚ),
    l.foldl max a = a ∨ l.foldl max a ∈ l := by
  intro l
  induction l with
  | nil => intro a; exact Or.inl rfl
  | cons x xs ih =>
    intro a
    rcases ih (max a x) with h | h
    · rcases le_total a x with hax | hax
      · rw [List.foldl_cons, h, max_eq_right hax]
        exact Or.inr (List.mem_cons_self _ _)
      · rw [List.foldl_cons, h, max_eq_left hax]
        exact Or.inl rfl
    · exact Or.inr (List.mem_cons_of_mem _ h)

/-- C7: the comment-reference pipeline emits, in encounter order over the
1-based page enumeration, one `{page, reference, text}` record per
annotation with non-empty content, with `text` the annotation's own content
and `reference` computed as the claim describes (bounding rectangles of
each group of 4 quad vertices sorted by `(top, left)`, fallback to the
annotation's rectangle when there are no vertices, per-rectangle clipped
text right-stripped and empty extractions dropped, newline-joined,
right-stripped); `quadRect` is the axis-aligned bounding rectangle of its
chunk's points (it bounds every point and attains each side). -/
theorem extract_comments_pipeline (doc : List CPage) :
    extract_comments_results doc =
      (List.enumFrom 1 doc).flatMap (fun pa =>
        (pa.2.annots.filter fun a => !a.content.isEmpty).map fun a =>
          { page := pa.1
            reference := referenceSpec pa.2.getText a
            text := a.content }) ∧
    (∀ getText a, extract_reference getText a = referenceSpec getText a) ∧
    (∀ q : (ℚ × ℚ) × List (ℚ × ℚ), ∀ pt ∈ q.1 :: q.2,
      (quadRect q).x0 ≤ pt.1 ∧ pt.1 ≤ (quadRect q).x1 ∧
      (quadRect q).y0 ≤ pt.2 ∧ pt.2 ≤ (quadRect q).y1) ∧
    (∀ q : (ℚ × ℚ) × List (ℚ × ℚ),
      (∃ pt ∈ q.1 :: q.2, pt.1 = (quadRect q).x0) ∧
      (∃ pt ∈ q.1 :: q.2, pt.2 = (quadRect q).y0) ∧
      (∃ pt ∈ q.1 :: q.2, pt.1 = (quadRect q).x1) ∧
      (∃ pt ∈ q.1 :: q.2, pt.2 = (quadRect q).y1)) := by
  refine ⟨?_, extract_reference_eq_referenceSpec, ?_, ?_⟩
  · show commentsLoop 1 doc = _
    have hgen : ∀ (d : List CPage) (n : ℕ), commentsLoop n d =
        (List.enumFrom n d).flatMap (fun pa =>
          (pa.2.annots.filter fun a => !a.content.isEmpty).map fun a =>
            { page := pa.1
              reference := referenceSpec pa.2.getText a
              text := a.content }) := by
      intro d
      induction d with
      | nil => intro n; rfl
      | cons p rest ih =>
        intro n
        show commentsForPage n p ++ commentsLoop (n + 1) rest = _
        rw [List.enumFrom, List.flatMap_cons, ih (n + 1)]
        congr 1
        show List.foldl _ [] p.annots = _
        have h := annots_foldl_eq p.getText n p.annots []
        simp only [List.nil_append] at h
        rw [h]
        exact List.map_congr_left fun a _ => by
          rw [extract_reference_eq_referenceSpec]
    exact hgen doc 1
  · rintro q pt hpt
    rcases List.mem_cons.mp hpt with rfl | hpt
    · exact ⟨foldl_min_le_init _ _, foldl_max_ge_init _ _,
        foldl_min_le_init _ _, foldl_max_ge_init _ _⟩
    · exact ⟨foldl_min_le_mem _ _ _ (List.mem_map_of_mem _ hpt),
        foldl_max_ge_mem _ _ _ (List.mem_map_of_mem _ hpt),
        foldl_min_le_mem _ _ _ (List.mem_map_of_mem _ hpt),
        foldl_max_ge_mem _ _ _ (List.mem_map_of_mem _ hpt)⟩
  · intro q
    refine ⟨?_, ?_, ?_, ?_⟩
    · rcases foldl_min_mem (q.2.map Prod.fst) q.1.1 with h | h
      · exact ⟨q.1, List.mem_cons_self _ _, h.symm⟩
      · obtain ⟨pt, hpt, heq⟩ := List.mem_map.mp h
        exact ⟨pt, List.mem_cons_of_mem _ hpt, heq⟩
    · rcases foldl_min_mem (q.2.map Prod.snd) q.1.2 with h | h
      · exact ⟨q.1, List.mem_cons_self _ _, h.symm⟩
      · obtain ⟨pt, hpt, heq⟩ := List.mem_map.mp h
        exact ⟨pt, List.mem_cons_of_mem _ hpt, heq⟩
    · rcases foldl_max_mem (q.2.map Prod.fst) q.1.1 with h | h
      · exact ⟨q.1, List.mem_cons_self _ _, h.symm⟩
      · obtain ⟨pt, hpt, heq⟩ := List.mem_map.mp h
        exact ⟨pt, List.mem_cons_of_mem _ hpt, heq⟩
    · rcases foldl_max_mem (q.2.map Prod.snd) q.1.2 with h | h
      · exact ⟨q.1, List.mem_cons_self _ _, h.symm⟩
      · obtain ⟨pt, hpt, heq⟩ := List.mem_map.mp h
        exact ⟨pt, List.mem_cons_of_mem _ hpt, heq⟩

/-- Witness for C7: the reference of a quad-less annotation is the clipped
page text of its own rectangle, right-stripped. -/
theorem extract_comments_pipeline_witness :
    extract_reference (fun _ => "hello ") ⟨⟨0, 0, 1, 1⟩, [], "note"⟩
      = "hello" := by
  have h := (extract_comments_pipeline []).2.1 (fun _ => "hello ")
    ⟨⟨0, 0, 1, 1⟩, [], "note"⟩
  rw [h]
  decide


/-- Invariant of the emission fold: the `seen` list is exactly the keys of
the emitted results, a key is seen iff it was already seen or occurs among
the processed candidates, and pairwise key-distinctness of the results is
preserved. -/
lemma dedupFold_invariant :
    ∀ (cands : List OutputRec) (st : List OutputRec × List (ℕ × String)),
      st.2 = st.1.map dedupKey →
      (cands.foldl dedupStep st).2 = (cands.foldl dedupStep st).1.map dedupKey ∧
      (∀ k, k ∈ (cands.foldl dedupStep st).2 ↔
        (k ∈ st.2 ∨ ∃ o ∈ cands, dedupKey o = k)) ∧
      (List.Pairwise (fun a b => dedupKey a ≠ dedupKey b) st.1 →
        List.Pairwise (fun a b => dedupKey a ≠ dedupKey b)
          (cands.foldl dedupStep st).1) := by
  intro cands
  induction cands with
  | nil =>
    intro st hinv
    refine ⟨hinv, fun k => by simp, fun hp => hp⟩
  | cons o rest ih =>
    intro st hinv
    rw [List.foldl_cons]
    by_cases hmem : dedupKey o ∈ st.2
    · have hstep : dedupStep st o = st := by simp [dedupStep, hmem]
      rw [hstep]
      obtain ⟨h1, h2, h3⟩ := ih st hinv
      refine ⟨h1, fun k => ?_, h3⟩
      rw [h2 k]
      constructor
      · rintro (hk | ⟨x, hx, hk⟩)
        · exact Or.inl hk
        · exact Or.inr ⟨x, List.mem_cons_of_mem _ hx, hk⟩
      · rintro (hk | ⟨x, hx, hk⟩)
        · exact Or.inl hk
        · rcases List.mem_cons.mp hx with rfl | hx
          · exact Or.inl (hk ▸ hmem)
          · exact Or.inr ⟨x, hx, hk⟩
    · have hstep : dedupStep st o = (st.1 ++ [o], st.2 ++ [dedupKey o]) := by
        simp [dedupStep, hmem]
      rw [hstep]
      have hinv2 : (st.1 ++ [o], st.2 ++ [dedupKey o]).2 =
          (st.1 ++ [o], st.2 ++ [dedupKey o]).1.map dedupKey := by
        simp [hinv]
      obtain ⟨h1, h2, h3⟩ := ih _ hinv2
      refine ⟨h1, fun k => ?_, fun hp => ?_⟩
      · rw [h2 k]
        simp only [List.mem_append, List.mem_singleton]
        constructor
        · rintro ((hk | hk) | ⟨x, hx, hk⟩)
          · exact Or.inl hk
          · exact Or.inr ⟨o, List.mem_cons_self _ _, hk.symm⟩
          · exact Or.inr ⟨x, List.mem_cons_of_mem _ hx, hk⟩
        · rintro (hk | ⟨x, hx, hk⟩)
          · exact Or.inl (Or.inl hk)
          · rcases List.mem_cons.mp hx with rfl | hx
            · exact Or.inl (Or.inr hk.symm)
            · exact Or.inr ⟨x, hx, hk⟩
      · refine h3 ?_
        rw [List.pairwise_append]
        refine ⟨hp, List.pairwise_singleton _ _, ?_⟩
        intro a ha b hb
        rw [List.mem_singleton] at hb
        subst hb
        intro hk
        exact hmem (hinv ▸ (hk ▸ List.mem_map_of_mem dedupKey ha))

/-- In a list with pairwise distinct keys, a key that occurs occurs on
exactly one record. -/
lemma pairwise_filter_length_one :
    ∀ (l : List OutputRec) (k : ℕ × String),
      List.Pairwise (fun a b => dedupKey a ≠ dedupKey b) l →
      (∃ o ∈ l, dedupKey o = k) →
      (l.filter fun o => dedupKey o == k).length = 1 := by
  intro l
  induction l with
  | nil => rintro k _ ⟨o, ho, _⟩; cases ho
  | cons a as ih =>
    rintro k hp ⟨o, ho, hk⟩
    have ha := List.pairwise_cons.mp hp
    by_cases hak : dedupKey a = k
    · have hnil : as.filter (fun o => dedupKey o == k) = [] := by
        rw [List.filter_eq_nil_iff]
        intro b hb
        simp only [beq_iff_eq]
        exact fun hbk => ha.1 b hb (hak ▸ hbk ▸ rfl)
      rw [List.filter_cons_of_pos (by simp [hak]), hnil]
      rfl
    · have hoas : o ∈ as := by
        rcases List.mem_cons.mp ho with rfl | h
        · exact absurd hk hak
        · exact h
      rw [List.filter_cons_of_neg (by simp [hak])]
      exact ih k ha.2 ⟨o, hoas, hk⟩

/-- C8: no two records of the palette pipeline's emitted result sequence
share the same `(page, text)` key (the pipeline's records carry no comment
id, so the claim's `(page, comment-id-or-None, text)` key reduces to
`(page, text)`); a key occurs among the emitted results iff it occurs among
the candidate outputs, an occurring key occurs on exactly one record, and
two identical candidate records (two identical-text same-color groups on
one page) emit exactly one record. -/
theorem palette_dedup (doc : List PPage) :
    List.Pairwise (fun a b => dedupKey a ≠ dedupKey b) (palette_results doc) ∧
    palette_results doc =
      dedupRun (paletteCandidates (collectHighlights 1 doc) 1 doc) ∧
    (∀ candidates : List OutputRec,
      List.Pairwise (fun a b => dedupKey a ≠ dedupKey b)
        (dedupRun candidates)) ∧
    (∀ (candidates : List OutputRec) (k : ℕ × String),
      (∃ o ∈ dedupRun candidates, dedupKey o = k) ↔
        ∃ o ∈ candidates, dedupKey o = k) ∧
    (∀ (candidates : List OutputRec) (k : ℕ × String),
      (∃ o ∈ candidates, dedupKey o = k) →
      ((dedupRun candidates).filter fun o => dedupKey o == k).length = 1) ∧
    (∀ o : OutputRec, dedupRun [o, o] = [o]) := by
  have hpair : ∀ candidates : List OutputRec,
      List.Pairwise (fun a b => dedupKey a ≠ dedupKey b) (dedupRun candidates) :=
    fun candidates =>
      (dedupFold_invariant candidates ([], []) rfl).2.2 (List.Pairwise.nil)
  have hmem : ∀ (candidates : List OutputRec) (k : ℕ × String),
      (∃ o ∈ dedupRun candidates, dedupKey o = k) ↔
        ∃ o ∈ candidates, dedupKey o = k := by
    intro candidates k
    obtain ⟨h1, h2, _⟩ := dedupFold_invariant candidates ([], []) rfl
    have hk := h2 k
    simp only [List.not_mem_nil, false_or] at hk
    rw [← hk, h1]
    constructor
    · rintro ⟨o, ho, rfl⟩
      exact List.mem_map_of_mem dedupKey ho
    · intro h
      obtain ⟨o, ho, hk2⟩ := List.mem_map.mp h
      exact ⟨o, ho, hk2⟩
  refine ⟨hpair _, rfl, hpair, hmem, ?_, ?_⟩
  · intro candidates k hex
    exact pairwise_filter_length_one _ k (hpair candidates)
      ((hmem candidates k).mpr hex)
  · intro o
    simp [dedupRun, dedupStep]

/-- Witness for C8: two identical candidate records de-duplicate to one. -/
theorem palette_dedup_witness :
    dedupRun [⟨1, ["yellow"], "Hello world"⟩, ⟨1, ["yellow"], "Hello world"⟩]
      = [⟨1, ["yellow"], "Hello world"⟩] :=
  (palette_dedup []).2.2.2.2.2 ⟨1, ["yellow"], "Hello world"⟩

/-- C9: with the PDF toolkit unavailable, both pipelines stop with exit
status 2 (distinct from success 0) and the `require_pymupdf` stderr
message, produce an outcome independent of the document (no document
access), and complete with no result sequence. -/
theorem pipelines_exit_2_on_missing_pymupdf
    (cdoc cdoc2 : List CPage) (pdoc pdoc2 : List PPage) :
    run_extract_comments false cdoc = .exited 2 pymupdfMissingMsg ∧
    run_extract_highlighted_lines false pdoc = .exited 2 pymupdfMissingMsg ∧
    (2 : ℕ) ≠ 0 ∧
    run_extract_comments false cdoc = run_extract_comments false cdoc2 ∧
    run_extract_highlighted_lines false pdoc =
      run_extract_highlighted_lines false pdoc2 ∧
    (∀ res, run_extract_comments false cdoc ≠ .completed res) ∧
    (∀ res, run_extract_highlighted_lines false pdoc ≠ .completed res) := by
  have hc : run_extract_comments false cdoc = .exited 2 pymupdfMissingMsg := rfl
  have hc2 : run_extract_comments false cdoc2 = .exited 2 pymupdfMissingMsg := rfl
  have hp : run_extract_highlighted_lines false pdoc
      = .exited 2 pymupdfMissingMsg := rfl
  have hp2 : run_extract_highlighted_lines false pdoc2
      = .exited 2 pymupdfMissingMsg := rfl
  refine ⟨hc, hp, by norm_num, hc.trans hc2.symm, hp.trans hp2.symm, ?_, ?_⟩
  · intro res h
    rw [hc] at h
    exact RunOutcome.noConfusion h
  · intro res h
    rw [hp] at h
    exact RunOutcome.noConfusion h
